import Mathlib

/-!
The cgo boundary layer of go-enry (`shared/enry.go`)

A shallow embedding of the marshalling and ownership code of `shared/enry.go`
over an explicit model of the C heap.

* A Go `string` and a Go `[]byte` are sequences of bytes; a Go `[]string` is a
  sequence of such sequences (a nil slice and an empty slice are both `[]`).
* The C heap is a table of blocks indexed by block number.  A pointer is either
  null or a block number with an offset.  A block holds bytes (a `char` buffer)
  or pointer slots (a `char*` array, offsets counted in slots); a slot is
  uninitialised until it is written.
* Every access the C standard leaves undefined (a read or write outside a live
  block, a read of an uninitialised slot, a read of a `char` buffer without a
  terminator, `free` of anything but null or the start of a live block) and
  every Go run-time panic is the result `none`.
* `C.malloc` as called through cgo never returns null: it aborts the process
  when the allocator is exhausted, so allocation is modelled as always
  succeeding.
* The functions of the classification engine (packages `enry` and `data`) are
  not part of the file and are taken as a parameter, the record `Engine`.
-/

namespace Enry

/-! ## Data model -/

/-- One byte of a Go string or of a C buffer. -/
abbrev Byte := Fin 256

/-- A Go string (also used for a Go byte slice): a sequence of bytes. -/
abbrev Str := List Byte

/-- A C pointer: null, or an offset into a numbered block. -/
inductive Ptr where
  | null : Ptr
  | addr (block : Nat) (off : Nat) : Ptr
deriving DecidableEq

/-- The content of one block of the C heap. -/
inductive Block where
  | bytes (bs : List Byte) : Block
  | slots (ps : List (Option Ptr)) : Block
deriving DecidableEq

/-- The C heap: `cells[b]` is `some blk` while block `b` is live and `none` once
it has been freed; block numbers at or beyond `cells.length` were never
allocated.  `freed` records, oldest first, the blocks released by `C.free`. -/
structure Heap where
  cells : List (Option Block)
  freed : List Nat
deriving DecidableEq

/-- The live block numbered `b`, if any. -/
def Heap.lookup (h : Heap) (b : Nat) : Option Block :=
  match h.cells[b]? with
  | some (some blk) => some blk
  | _ => none

/-- Size in bytes of a pointer, `unsafe.Sizeof((*C.char)(nil))`, on a 64-bit target. -/
def ptrSize : Nat := 8

/-- Number of values of `C.size_t` on a 64-bit target. -/
def sizeMod : Nat := 2 ^ 64

/-- Length of the array type `[1 << 28]*C.char` through which the file indexes
C pointer arrays; an index at or beyond it is a Go run-time panic. -/
def arrayCap : Nat := 2 ^ 28

/-! ## C primitives used by the file -/

/-- Allocation of a new block holding `blk`: the block number is the first one
never used before. -/
def alloc (h : Heap) (blk : Block) : Heap × Nat :=
  (⟨h.cells ++ [some blk], h.freed⟩, h.cells.length)

/-- `C.malloc(n)` for a block that the caller views as an array of pointers:
`n / ptrSize` uninitialised slots. -/
def malloc (h : Heap) (n : Nat) : Heap × Ptr :=
  let r := alloc h (Block.slots (List.replicate (n / ptrSize) none))
  (r.1, Ptr.addr r.2 0)

/-- `C.CString(s)`: a new buffer holding the bytes of `s` followed by a zero
byte. -/
def CString (h : Heap) (s : Str) : Heap × Ptr :=
  let r := alloc h (Block.bytes (s ++ [0]))
  (r.1, Ptr.addr r.2 0)

/-- `C.free(p)`: nothing for null; releases the live block that `p` is the
start of; undefined otherwise. -/
def free (h : Heap) : Ptr → Option Heap
  | Ptr.null => some h
  | Ptr.addr b off =>
    if off = 0 then
      match h.lookup b with
      | some _ => some ⟨h.cells.set b none, h.freed ++ [b]⟩
      | none => none
    else none

/-- `C.GoString(p)`: the empty string for null; otherwise the bytes from `p` up
to the first zero byte of its buffer. -/
def GoString (h : Heap) : Ptr → Option Str
  | Ptr.null => some []
  | Ptr.addr b off =>
    match h.lookup b with
    | some (Block.bytes bs) =>
      if off ≤ bs.length ∧ (0 : Byte) ∈ bs.drop off then
        some ((bs.drop off).takeWhile (fun c => c ≠ 0))
      else none
    | _ => none

/-- `C.GoBytes(p, n)`: a copy of the `n` bytes starting at `p`. -/
def GoBytes (h : Heap) (p : Ptr) (n : Nat) : Option (List Byte) :=
  match p with
  | Ptr.null => if n = 0 then some [] else none
  | Ptr.addr b off =>
    match h.lookup b with
    | some (Block.bytes bs) =>
      if off + n ≤ bs.length then some ((bs.drop off).take n) else none
    | _ => none

/-- Read of `p[i]` for `p` a pointer to pointer slots. -/
def load (h : Heap) (p : Ptr) (i : Nat) : Option Ptr :=
  match p with
  | Ptr.null => none
  | Ptr.addr b off =>
    match h.lookup b with
    | some (Block.slots ps) =>
      match ps[off + i]? with
      | some (some q) => some q
      | _ => none
    | _ => none

/-- Write `p[i] = v` for `p` a pointer to pointer slots. -/
def store (h : Heap) (p : Ptr) (i : Nat) (v : Ptr) : Option Heap :=
  match p with
  | Ptr.null => none
  | Ptr.addr b off =>
    match h.lookup b with
    | some (Block.slots ps) =>
      if off + i < ps.length then
        some ⟨h.cells.set b (some (Block.slots (ps.set (off + i) (some v)))), h.freed⟩
      else none
    | _ => none

/-! ## Deallocation entry points -/

/-- `FreeCString(str)`: `C.free(unsafe.Pointer(str))`. -/
def FreeCString (h : Heap) (str : Ptr) : Option Heap :=
  free h str

/-- The loop of `FreeStringArray`, `for i := 0; cArray[i] != nil; i++
{ C.free(cArray[i]) }`.  The first argument is `arrayCap - i`, the number of
indices still inside `[1 << 28]*C.char`: when it is `0` the index expression
`cArray[i]` panics. -/
def FreeStringArray.loop (cArray : Ptr) : Nat → Nat → Heap → Option Heap
  | 0, _, _ => none
  | inRange + 1, i, h =>
    match load h cArray i with
    | none => none
    | some q =>
      if q = Ptr.null then some h
      else
        match free h q with
        | none => none
        | some h1 => FreeStringArray.loop cArray inRange (i + 1) h1

/-- `FreeStringArray(ptr)`: nothing for null; otherwise the loop, then
`C.free(ptr)`. -/
def FreeStringArray (h : Heap) (ptr : Ptr) : Option Heap :=
  if ptr = Ptr.null then some h
  else
    match FreeStringArray.loop ptr arrayCap 0 h with
    | none => none
    | some h1 => free h1 ptr

/-! ## Internal helpers -/

/-- `toGoBytes(content, length)`; `length` is a `C.int`. -/
def toGoBytes (h : Heap) (content : Ptr) (length : Int) : Option (List Byte) :=
  if content = Ptr.null ∨ length ≤ 0 then some []
  else GoBytes h content length.toNat

/-- The loop of `strArrayToC`, `for i, s := range langs { cArray[i] = C.CString(s) }`;
the second argument is the index `i` of the head of the remaining strings.  An
index at or beyond `arrayCap` panics. -/
def strArrayToC.loop (cArray : Ptr) : List Str → Nat → Heap → Option Heap
  | [], _, h => some h
  | s :: rest, i, h =>
    let r := CString h s
    if i < arrayCap then
      match store r.1 cArray i r.2 with
      | none => none
      | some h1 => strArrayToC.loop cArray rest (i + 1) h1
    else none

/-- `strArrayToC(langs)`: `C.malloc` of `len(langs)+1` pointers (the product
taken in `C.size_t`), the loop, then `cArray[len(langs)] = nil`. -/
def strArrayToC (h : Heap) (langs : List Str) : Option (Heap × Ptr) :=
  let r := malloc h (((langs.length + 1) % sizeMod) * ptrSize % sizeMod)
  match strArrayToC.loop r.2 langs 0 r.1 with
  | none => none
  | some h1 =>
    if langs.length < arrayCap then
      match store h1 r.2 langs.length Ptr.null with
      | none => none
      | some h2 => some (h2, r.2)
    else none

/-- The loop of `cArrayToGoSlice`, `for *p != nil { slice = append(slice,
C.GoString(*p)); p += sizeof(uintptr) }`.  The first argument is the memory
from `p` to the end of its block, one entry per pointer slot, so that `*p` is
its head and advancing `p` drops the head; when it is empty `p` has left the
block and the read is undefined. -/
def cArrayToGoSlice.loop (h : Heap) : List (Option Ptr) → List Str → Option (List Str)
  | [], _ => none
  | none :: _, _ => none
  | some q :: rest, slice =>
    if q = Ptr.null then some slice
    else
      match GoString h q with
      | none => none
      | some s => cArrayToGoSlice.loop h rest (slice ++ [s])

/-- `cArrayToGoSlice(cArray)`.  The result carries the heap the call leaves
behind. -/
def cArrayToGoSlice (h : Heap) (cArray : Ptr) : Option (List Str × Heap) :=
  match cArray with
  | Ptr.null => some ([], h)
  | Ptr.addr b off =>
    match h.lookup b with
    | some (Block.slots ps) =>
      if off ≤ ps.length then
        match cArrayToGoSlice.loop h (ps.drop off) [] with
        | none => none
        | some slice => some (slice, h)
      else none
    | _ => none

/-! ## The classification engine -/

/-- The functions of packages `enry` and `data` that the file calls (and
`GetLanguageByEmacsModeline`, which `enry` exports and the file does not call).
They are pure: the engine only reads tables fixed at start-up.  `Type` values
are integers. -/
structure Engine where
  GetLanguage : Str → List Byte → Str
  GetLanguageByContent : Str → List Byte → Str × Bool
  GetLanguageByEmacsModeline : List Byte → Str × Bool
  GetLanguageByExtension : Str → Str × Bool
  GetLanguageByFilename : Str → Str × Bool
  GetLanguageByModeline : List Byte → Str × Bool
  GetLanguageByShebang : List Byte → Str × Bool
  GetLanguageByVimModeline : List Byte → Str × Bool
  GetMIMEType : Str → Str → Str
  GetColor : Str → Str
  GetLanguageType : Str → Int
  TypeString : Int → Str
  IsBinary : List Byte → Bool
  IsConfiguration : Str → Bool
  IsDocumentation : Str → Bool
  IsDotFile : Str → Bool
  IsImage : Str → Bool
  IsVendor : Str → Bool
  IsGenerated : Str → List Byte → Bool
  IsTest : Str → Bool
  GetLanguages : Str → List Byte → List Str
  GetLanguageExtensions : Str → List Str
  GetLanguagesByContent : Str → List Byte → List Str → List Str
  GetLanguagesByEmacsModeline : Str → List Byte → List Str → List Str
  GetLanguagesByExtension : Str → List Byte → List Str → List Str
  GetLanguagesByFilename : Str → List Byte → List Str → List Str
  GetLanguagesByModeline : Str → List Byte → List Str → List Str
  GetLanguagesByShebang : Str → List Byte → List Str → List Str
  GetLanguagesByVimModeline : Str → List Byte → List Str → List Str

/-! ## Singular API -/

/-- `GetLanguage(filename, content, length)`. -/
def GetLanguage (e : Engine) (h : Heap) (filename content : Ptr) (length : Int) :
    Option (Heap × Ptr) :=
  match GoString h filename, toGoBytes h content length with
  | some f, some c => some (CString h (e.GetLanguage f c))
  | _, _ => none

/-- `GetLanguageByContent(filename, content, length)`. -/
def GetLanguageByContent (e : Engine) (h : Heap) (filename content : Ptr) (length : Int) :
    Option (Heap × Ptr) :=
  match GoString h filename, toGoBytes h content length with
  | some f, some c => some (CString h (e.GetLanguageByContent f c).1)
  | _, _ => none

/-- `GetLanguageByEmacsModeline(content, length)`; the source calls
`enry.GetLanguageByModeline`. -/
def GetLanguageByEmacsModeline (e : Engine) (h : Heap) (content : Ptr) (length : Int) :
    Option (Heap × Ptr) :=
  match toGoBytes h content length with
  | some c => some (CString h (e.GetLanguageByModeline c).1)
  | none => none

/-- `GetLanguageByExtension(filename)`. -/
def GetLanguageByExtension (e : Engine) (h : Heap) (filename : Ptr) : Option (Heap × Ptr) :=
  match GoString h filename with
  | some f => some (CString h (e.GetLanguageByExtension f).1)
  | none => none

/-- `GetLanguageByFilename(filename)`. -/
def GetLanguageByFilename (e : Engine) (h : Heap) (filename : Ptr) : Option (Heap × Ptr) :=
  match GoString h filename with
  | some f => some (CString h (e.GetLanguageByFilename f).1)
  | none => none

/-- `GetLanguageByModeline(content, length)`. -/
def GetLanguageByModeline (e : Engine) (h : Heap) (content : Ptr) (length : Int) :
    Option (Heap × Ptr) :=
  match toGoBytes h content length with
  | some c => some (CString h (e.GetLanguageByModeline c).1)
  | none => none

/-- `GetLanguageByShebang(content, length)`. -/
def GetLanguageByShebang (e : Engine) (h : Heap) (content : Ptr) (length : Int) :
    Option (Heap × Ptr) :=
  match toGoBytes h content length with
  | some c => some (CString h (e.GetLanguageByShebang c).1)
  | none => none

/-- `GetLanguageByVimModeline(content, length)`. -/
def GetLanguageByVimModeline (e : Engine) (h : Heap) (content : Ptr) (length : Int) :
    Option (Heap × Ptr) :=
  match toGoBytes h content length with
  | some c => some (CString h (e.GetLanguageByVimModeline c).1)
  | none => none

/-- `GetMimeType(path, language)`. -/
def GetMimeType (e : Engine) (h : Heap) (path language : Ptr) : Option (Heap × Ptr) :=
  match GoString h path, GoString h language with
  | some p, some l => some (CString h (e.GetMIMEType p l))
  | _, _ => none

/-- `GetColor(language)`. -/
def GetColor (e : Engine) (h : Heap) (language : Ptr) : Option (Heap × Ptr) :=
  match GoString h language with
  | some l => some (CString h (e.GetColor l))
  | none => none

/-- `GetLanguageType(language)`:
`C.CString(data.Type(enry.GetLanguageType(...)).String())`. -/
def GetLanguageType (e : Engine) (h : Heap) (language : Ptr) : Option (Heap × Ptr) :=
  match GoString h language with
  | some l => some (CString h (e.TypeString (e.GetLanguageType l)))
  | none => none

/-! ## Boolean API (the result is a `C.int`) -/

/-- `IsBinary(content, length)`. -/
def IsBinary (e : Engine) (h : Heap) (content : Ptr) (length : Int) : Option Int :=
  match toGoBytes h content length with
  | some c => if e.IsBinary c then some 1 else some 0
  | none => none

/-- `IsConfiguration(path)`. -/
def IsConfiguration (e : Engine) (h : Heap) (path : Ptr) : Option Int :=
  match GoString h path with
  | some p => if e.IsConfiguration p then some 1 else some 0
  | none => none

/-- `IsDocumentation(path)`. -/
def IsDocumentation (e : Engine) (h : Heap) (path : Ptr) : Option Int :=
  match GoString h path with
  | some p => if e.IsDocumentation p then some 1 else some 0
  | none => none

/-- `IsDotFile(path)`. -/
def IsDotFile (e : Engine) (h : Heap) (path : Ptr) : Option Int :=
  match GoString h path with
  | some p => if e.IsDotFile p then some 1 else some 0
  | none => none

/-- `IsImage(path)`. -/
def IsImage (e : Engine) (h : Heap) (path : Ptr) : Option Int :=
  match GoString h path with
  | some p => if e.IsImage p then some 1 else some 0
  | none => none

/-- `IsVendor(path)`. -/
def IsVendor (e : Engine) (h : Heap) (path : Ptr) : Option Int :=
  match GoString h path with
  | some p => if e.IsVendor p then some 1 else some 0
  | none => none

/-- `IsGenerated(path, content, length)`. -/
def IsGenerated (e : Engine) (h : Heap) (path content : Ptr) (length : Int) : Option Int :=
  match GoString h path, toGoBytes h content length with
  | some p, some c => if e.IsGenerated p c then some 1 else some 0
  | _, _ => none

/-- `IsTest(path)`. -/
def IsTest (e : Engine) (h : Heap) (path : Ptr) : Option Int :=
  match GoString h path with
  | some p => if e.IsTest p then some 1 else some 0
  | none => none

/-! ## Plural API -/

/-- `GetLanguages(filename, content, length)`. -/
def GetLanguages (e : Engine) (h : Heap) (filename content : Ptr) (length : Int) :
    Option (Heap × Ptr) :=
  match GoString h filename, toGoBytes h content length with
  | some f, some c => strArrayToC h (e.GetLanguages f c)
  | _, _ => none

/-- `GetLanguageExtensions(language)`. -/
def GetLanguageExtensions (e : Engine) (h : Heap) (language : Ptr) : Option (Heap × Ptr) :=
  match GoString h language with
  | some l => strArrayToC h (e.GetLanguageExtensions l)
  | none => none

/-- `GetLanguagesByContent(filename, content, length, candidates)`. -/
def GetLanguagesByContent (e : Engine) (h : Heap) (filename content : Ptr) (length : Int)
    (candidates : Ptr) : Option (Heap × Ptr) :=
  match GoString h filename, toGoBytes h content length, cArrayToGoSlice h candidates with
  | some f, some c, some (cs, h1) => strArrayToC h1 (e.GetLanguagesByContent f c cs)
  | _, _, _ => none

/-- `GetLanguagesByEmacsModeline(filename, content, length, candidates)`. -/
def GetLanguagesByEmacsModeline (e : Engine) (h : Heap) (filename content : Ptr) (length : Int)
    (candidates : Ptr) : Option (Heap × Ptr) :=
  match GoString h filename, toGoBytes h content length, cArrayToGoSlice h candidates with
  | some f, some c, some (cs, h1) => strArrayToC h1 (e.GetLanguagesByEmacsModeline f c cs)
  | _, _, _ => none

/-- `GetLanguagesByExtension(filename, content, length, candidates)`. -/
def GetLanguagesByExtension (e : Engine) (h : Heap) (filename content : Ptr) (length : Int)
    (candidates : Ptr) : Option (Heap × Ptr) :=
  match GoString h filename, toGoBytes h content length, cArrayToGoSlice h candidates with
  | some f, some c, some (cs, h1) => strArrayToC h1 (e.GetLanguagesByExtension f c cs)
  | _, _, _ => none

/-- `GetLanguagesByFilename(filename, content, length, candidates)`. -/
def GetLanguagesByFilename (e : Engine) (h : Heap) (filename content : Ptr) (length : Int)
    (candidates : Ptr) : Option (Heap × Ptr) :=
  match GoString h filename, toGoBytes h content length, cArrayToGoSlice h candidates with
  | some f, some c, some (cs, h1) => strArrayToC h1 (e.GetLanguagesByFilename f c cs)
  | _, _, _ => none

/-- `GetLanguagesByModeline(filename, content, length, candidates)`. -/
def GetLanguagesByModeline (e : Engine) (h : Heap) (filename content : Ptr) (length : Int)
    (candidates : Ptr) : Option (Heap × Ptr) :=
  match GoString h filename, toGoBytes h content length, cArrayToGoSlice h candidates with
  | some f, some c, some (cs, h1) => strArrayToC h1 (e.GetLanguagesByModeline f c cs)
  | _, _, _ => none

/-- `GetLanguagesByShebang(filename, content, length, candidates)`. -/
def GetLanguagesByShebang (e : Engine) (h : Heap) (filename content : Ptr) (length : Int)
    (candidates : Ptr) : Option (Heap × Ptr) :=
  match GoString h filename, toGoBytes h content length, cArrayToGoSlice h candidates with
  | some f, some c, some (cs, h1) => strArrayToC h1 (e.GetLanguagesByShebang f c cs)
  | _, _, _ => none

/-- `GetLanguagesByVimModeline(filename, content, length, candidates)`. -/
def GetLanguagesByVimModeline (e : Engine) (h : Heap) (filename content : Ptr) (length : Int)
    (candidates : Ptr) : Option (Heap × Ptr) :=
  match GoString h filename, toGoBytes h content length, cArrayToGoSlice h candidates with
  | some f, some c, some (cs, h1) => strArrayToC h1 (e.GetLanguagesByVimModeline f c cs)
  | _, _, _ => none

/-! ## Vocabulary of the statements -/

/-- The initialised pointer slots that hold the starts of the `n` blocks
numbered `b`, `b+1`, …, `b+n-1`. -/
def elemPtrs (b n : Nat) : List (Option Ptr) :=
  (List.range' b n).map (fun k => some (Ptr.addr k 0))

/-- The buffers that `C.CString` makes of a sequence of strings, as heap cells. -/
def elemCells (xs : List Str) : List (Option Block) :=
  xs.map (fun s => some (Block.bytes (s ++ [0])))

/-- Pointer `q` points at the NUL-terminated string `s`: `q` lies in a live
`char` buffer whose bytes from `q` on are the bytes of `s`, none of them zero,
followed by a zero byte. -/
def CStrAt (h : Heap) (q : Ptr) (s : Str) : Prop :=
  ∃ b bs before after, q = Ptr.addr b before.length ∧ h.lookup b = some (Block.bytes bs) ∧
    bs = before ++ s ++ 0 :: after ∧ (0 : Byte) ∉ s

/-- Result `r` of an operation run from heap `h` is a fresh C string holding
`label`: a non-null pointer to the start of a block that was not live in `h`
(and was never allocated before), whose content is the bytes of `label`
followed by the terminator, so the terminator only when `label` is empty; every
other block is as in `h` and nothing was freed. -/
def FreshCString (h : Heap) (label : Str) (r : Option (Heap × Ptr)) : Prop :=
  ∃ h1 p b, r = some (h1, p) ∧ p ≠ Ptr.null ∧ p = Ptr.addr b 0 ∧
    h.lookup b = none ∧ h.cells.length ≤ b ∧
    h1.lookup b = some (Block.bytes (label ++ [0])) ∧
    (label = [] → h1.lookup b = some (Block.bytes [0])) ∧
    (∀ b1, b1 ≠ b → h1.lookup b1 = h.lookup b1) ∧ h1.freed = h.freed

/-- Result `r` of an operation run from heap `h` is a non-null pointer to the
start of a new block of exactly `labels.length + 1` pointer slots, slot `i`
pointing to the start of a new buffer holding `labels[i]` and its terminator,
the last slot being null; blocks that were live in `h` are as in `h`. -/
def HoldsLabels (h : Heap) (labels : List Str) (r : Option (Heap × Ptr)) : Prop :=
  ∃ h1 p a, r = some (h1, p) ∧ p ≠ Ptr.null ∧ p = Ptr.addr a 0 ∧ h.lookup a = none ∧
    (∃ ps, h1.lookup a = some (Block.slots ps) ∧ ps.length = labels.length + 1) ∧
    (∀ (i : Nat) (hi : i < labels.length), ∃ b, load h1 p i = some (Ptr.addr b 0) ∧
      h1.lookup b = some (Block.bytes (labels[i] ++ [0])) ∧ h.lookup b = none) ∧
    load h1 p labels.length = some Ptr.null ∧
    (∀ b, b < h.cells.length → h1.lookup b = h.lookup b) ∧ h1.freed = h.freed

/-- Result `r` of a boolean operation encodes `b`: it is `1` exactly when `b`
is true, `0` exactly when `b` is false, and nothing else. -/
def EncodesBool (r : Option Int) (b : Bool) : Prop :=
  (r = some 1 ∨ r = some 0) ∧ (r = some 1 ↔ b = true) ∧ (r = some 0 ↔ b = false)

/-- An engine for examples: every single-result classifier answers `label`
except the Emacs one, which answers `emacs`; every predicate answers `flag`;
every plural classifier answers `labels`. -/
def sampleEngine (label emacs : Str) (flag : Bool) (labels : List Str) : Engine where
  GetLanguage := fun _ _ => label
  GetLanguageByContent := fun _ _ => (label, true)
  GetLanguageByEmacsModeline := fun _ => (emacs, true)
  GetLanguageByExtension := fun _ => (label, true)
  GetLanguageByFilename := fun _ => (label, true)
  GetLanguageByModeline := fun _ => (label, true)
  GetLanguageByShebang := fun _ => (label, true)
  GetLanguageByVimModeline := fun _ => (label, true)
  GetMIMEType := fun _ _ => label
  GetColor := fun _ => label
  GetLanguageType := fun _ => 1
  TypeString := fun _ => label
  IsBinary := fun _ => flag
  IsConfiguration := fun _ => flag
  IsDocumentation := fun _ => flag
  IsDotFile := fun _ => flag
  IsImage := fun _ => flag
  IsVendor := fun _ => flag
  IsGenerated := fun _ _ => flag
  IsTest := fun _ => flag
  GetLanguages := fun _ _ => labels
  GetLanguageExtensions := fun _ => labels
  GetLanguagesByContent := fun _ _ _ => labels
  GetLanguagesByEmacsModeline := fun _ _ _ => labels
  GetLanguagesByExtension := fun _ _ _ => labels
  GetLanguagesByFilename := fun _ _ _ => labels
  GetLanguagesByModeline := fun _ _ _ => labels
  GetLanguagesByShebang := fun _ _ _ => labels
  GetLanguagesByVimModeline := fun _ _ _ => labels

/-- A heap for examples: block 0 is the buffer `"a.go\0b\0"`, block 1 an
array of pointers (into block 0, then null, then an uninitialised slot and a
pointer to a block that does not exist), block 2 a freed block. -/
def sampleHeap : Heap :=
  ⟨[some (Block.bytes [97, 46, 103, 111, 0, 98, 0]),
    some (Block.slots [some (Ptr.addr 0 5), some (Ptr.addr 0 0), some Ptr.null, none,
      some (Ptr.addr 7 0)]),
    none], [2]⟩

/-! ## Lemmas on lists and on the heap -/

theorem getElem?_mid {α : Type} (pre : List α) (x : α) (post : List α) :
    (pre ++ x :: post)[pre.length]? = some x := by
  rw [List.getElem?_append_right (Nat.le_refl _)]
  simp

theorem set_mid {α : Type} (pre : List α) (x y : α) (post : List α) :
    (pre ++ x :: post).set pre.length y = pre ++ y :: post := by
  simp

theorem lookup_mid (pre : List (Option Block)) (blk : Block) (post : List (Option Block))
    (fr : List Nat) : Heap.lookup ⟨pre ++ some blk :: post, fr⟩ pre.length = some blk := by
  simp only [Heap.lookup, getElem?_mid]

theorem lookup_after (pre : List (Option Block)) (x : Option Block) (post : List (Option Block))
    (fr : List Nat) (j : Nat) :
    Heap.lookup ⟨pre ++ x :: post, fr⟩ (pre.length + 1 + j) = Heap.lookup ⟨post, fr⟩ j := by
  have : (pre ++ x :: post)[pre.length + 1 + j]? = post[j]? := by
    rw [List.getElem?_append_right (by omega)]
    have : pre.length + 1 + j - pre.length = j + 1 := by omega
    rw [this]; simp
  simp [Heap.lookup, this]

theorem lookup_before (pre : List (Option Block)) (post : List (Option Block))
    (fr : List Nat) (j : Nat) (hj : j < pre.length) :
    Heap.lookup ⟨pre ++ post, fr⟩ j = Heap.lookup ⟨pre, fr⟩ j := by
  simp [Heap.lookup, List.getElem?_append_left hj]

theorem elemPtrs_succ (b n : Nat) :
    elemPtrs b (n + 1) = elemPtrs b n ++ [some (Ptr.addr (b + n) 0)] := by
  simp [elemPtrs, List.range'_concat]

theorem elemPtrs_cons (b n : Nat) :
    elemPtrs b (n + 1) = some (Ptr.addr b 0) :: elemPtrs (b + 1) n := by
  simp [elemPtrs, List.range'_succ]

theorem elemPtrs_length (b n : Nat) : (elemPtrs b n).length = n := by
  simp [elemPtrs]

theorem store_mid (pre : List (Option Block)) (ps : List (Option Ptr))
    (post : List (Option Block)) (fr : List Nat) (i : Nat) (v : Ptr) (hi : i < ps.length) :
    store ⟨pre ++ some (Block.slots ps) :: post, fr⟩ (Ptr.addr pre.length 0) i v
      = some ⟨pre ++ some (Block.slots (ps.set i (some v))) :: post, fr⟩ := by
  simp only [store, lookup_mid, Nat.zero_add, hi, if_true, set_mid]

theorem load_mid (pre : List (Option Block)) (ps : List (Option Ptr))
    (post : List (Option Block)) (fr : List Nat) (i : Nat) (q : Ptr)
    (hq : ps[i]? = some (some q)) :
    load ⟨pre ++ some (Block.slots ps) :: post, fr⟩ (Ptr.addr pre.length 0) i = some q := by
  simp only [load, lookup_mid, Nat.zero_add, hq]

theorem free_after (pre : List (Option Block)) (x : Option Block) (dead : List (Option Block))
    (blk : Block) (post : List (Option Block)) (fr : List Nat) :
    free ⟨pre ++ x :: (dead ++ some blk :: post), fr⟩ (Ptr.addr (pre.length + 1 + dead.length) 0)
      = some ⟨pre ++ x :: (dead ++ none :: post), fr ++ [pre.length + 1 + dead.length]⟩ := by
  have h1 : pre ++ x :: (dead ++ some blk :: post) = (pre ++ x :: dead) ++ some blk :: post := by
    simp
  have h2 : pre.length + 1 + dead.length = (pre ++ x :: dead).length := by simp; omega
  rw [h1, h2]
  simp only [free, lookup_mid, if_true, set_mid]
  simp

/-- Closed form of the loop of `strArrayToC` started at index `i` on an array
block whose first `i` slots are written and that has room for the rest. -/
theorem strArrayToC_loop_eq (pre : List (Option Block)) (fr : List Nat) :
    ∀ (rest : List Str) (i k : Nat) (E : List (Option Block)),
      E.length = i → rest.length ≤ k → i + rest.length ≤ arrayCap →
      strArrayToC.loop (Ptr.addr pre.length 0) rest i
          ⟨pre ++ some (Block.slots (elemPtrs (pre.length + 1) i ++ List.replicate k none)) :: E,
            fr⟩
        = some ⟨pre ++ some (Block.slots (elemPtrs (pre.length + 1) (i + rest.length)
                  ++ List.replicate (k - rest.length) none)) :: (E ++ elemCells rest), fr⟩ := by
  intro rest
  induction rest with
  | nil => intro i k E _ _ _; simp [strArrayToC.loop, elemCells]
  | cons s rest ih =>
    intro i k E hE hk hi
    simp only [List.length_cons] at hk hi
    obtain ⟨k', rfl⟩ : ∃ k', k = k' + 1 := ⟨k - 1, by omega⟩
    have hlt : i < arrayCap := by omega
    have hcells : ∀ (X : Option Block) (c : Option Block),
        (pre ++ X :: E) ++ [c] = pre ++ X :: (E ++ [c]) := by intro X c; simp
    have hlen : ∀ (X : Option Block), (pre ++ X :: E).length = pre.length + 1 + i := by
      intro X; simp; omega
    simp only [strArrayToC.loop, CString, alloc, hlt, if_true, hcells, hlen]
    rw [store_mid _ _ _ _ _ _ (by simp [elemPtrs_length])]
    have hset : (elemPtrs (pre.length + 1) i ++ List.replicate (k' + 1) (none : Option Ptr)).set i
          (some (Ptr.addr (pre.length + 1 + i) 0))
        = elemPtrs (pre.length + 1) (i + 1) ++ List.replicate k' none := by
      rw [List.set_append_right _ _ (by simp [elemPtrs_length])]
      simp [elemPtrs_length, elemPtrs_succ, List.replicate_succ]
    rw [hset]
    have := ih (i + 1) k' (E ++ [some (Block.bytes (s ++ [0]))]) (by simp [hE]) (by omega)
      (by omega)
    simp only [this]
    have e1 : i + 1 + rest.length = i + (s :: rest).length := by simp; omega
    have e2 : k' - rest.length = k' + 1 - (s :: rest).length := by simp
    rw [e1, e2]
    simp [elemCells]

theorem malloc_slot_count (n : Nat) (hn : n < arrayCap) :
    ((n + 1) % sizeMod * ptrSize % sizeMod) / ptrSize = n + 1 := by
  simp only [arrayCap, sizeMod, ptrSize] at *
  omega

/-- Closed form of `strArrayToC` on fewer than `arrayCap` strings: one new array
block, numbered `h.cells.length`, then one new buffer per string, in order. -/
theorem strArrayToC_eq (h : Heap) (xs : List Str) (hlen : xs.length < arrayCap) :
    strArrayToC h xs
      = some (⟨h.cells ++ some (Block.slots (elemPtrs (h.cells.length + 1) xs.length
                  ++ [some Ptr.null])) :: elemCells xs, h.freed⟩,
              Ptr.addr h.cells.length 0) := by
  have hloop := strArrayToC_loop_eq h.cells h.freed xs 0 (xs.length + 1) [] rfl (by omega)
    (by omega)
  simp only [elemPtrs, List.range'_zero, List.map_nil, List.nil_append, Nat.zero_add,
    List.append_nil] at hloop
  simp only [strArrayToC, malloc, alloc, malloc_slot_count _ hlen, hlen, if_true]
  have hcell : h.cells ++ [some (Block.slots (List.replicate (xs.length + 1) none))]
      = h.cells ++ some (Block.slots (List.replicate (xs.length + 1) none)) :: [] := rfl
  rw [hcell, hloop]
  have h1 : xs.length + 1 - xs.length = 1 := by omega
  simp only [h1]
  rw [store_mid _ _ _ _ _ _ (by simp)]
  rw [List.set_append_right _ _ (by simp)]
  simp [elemPtrs]

/-- On `arrayCap` strings or more `strArrayToC` panics: the index
`len(langs)` is outside `[1 << 28]*C.char`. -/
theorem strArrayToC_long (h : Heap) (xs : List Str) (hlen : arrayCap ≤ xs.length) :
    strArrayToC h xs = none := by
  have hnot : ¬ xs.length < arrayCap := by omega
  simp only [strArrayToC, hnot, if_false]
  split <;> rfl

/-- Closed form of the loop of `FreeStringArray` started at index `j`, the
buffers of the first `j` elements being freed already. -/
theorem FreeStringArray_loop_eq (pre : List (Option Block)) (n : Nat) :
    ∀ (rest : List Str) (j inRange : Nat) (fr : List Nat),
      j + rest.length = n → rest.length < inRange →
      FreeStringArray.loop (Ptr.addr pre.length 0) inRange j
          ⟨pre ++ some (Block.slots (elemPtrs (pre.length + 1) n ++ [some Ptr.null]))
              :: (List.replicate j none ++ elemCells rest), fr⟩
        = some ⟨pre ++ some (Block.slots (elemPtrs (pre.length + 1) n ++ [some Ptr.null]))
              :: List.replicate n none, fr ++ List.range' (pre.length + 1 + j) rest.length⟩ := by
  intro rest
  induction rest with
  | nil =>
    intro j inRange fr hj hr
    obtain ⟨f, rfl⟩ : ∃ f, inRange = f + 1 := ⟨inRange - 1, by simp at hr; omega⟩
    simp only [List.length_nil, Nat.add_zero] at hj
    subst hj
    have hq : (elemPtrs (pre.length + 1) j ++ [some Ptr.null])[j]? = some (some Ptr.null) := by
      have := getElem?_mid (elemPtrs (pre.length + 1) j) (some Ptr.null) []
      rw [elemPtrs_length] at this
      exact this
    simp only [FreeStringArray.loop, load_mid _ _ _ _ _ _ hq, if_true]
    simp [elemCells]
  | cons s rest ih =>
    intro j inRange fr hj hr
    simp only [List.length_cons] at hj hr
    obtain ⟨f, rfl⟩ : ∃ f, inRange = f + 1 := ⟨inRange - 1, by omega⟩
    have hq : (elemPtrs (pre.length + 1) n ++ [some Ptr.null])[j]?
        = some (some (Ptr.addr (pre.length + 1 + j) 0)) := by
      rw [List.getElem?_append_left (by simp [elemPtrs_length]; omega)]
      simp only [elemPtrs, List.getElem?_map, List.getElem?_range' _ _ (show j < n by omega)]
      simp
    have hne : Ptr.addr (pre.length + 1 + j) 0 ≠ Ptr.null := by simp
    simp only [FreeStringArray.loop, load_mid _ _ _ _ _ _ hq, hne, if_false]
    have hfree := free_after pre
      (some (Block.slots (elemPtrs (pre.length + 1) n ++ [some Ptr.null])))
      (List.replicate j none) (Block.bytes (s ++ [0])) (elemCells rest) fr
    simp only [List.length_replicate] at hfree
    have hc : elemCells (s :: rest) = some (Block.bytes (s ++ [0])) :: elemCells rest := rfl
    rw [hc, hfree]
    have hrep : List.replicate j (none : Option Block) ++ none :: elemCells rest
        = List.replicate (j + 1) none ++ elemCells rest := by
      rw [List.replicate_succ', List.append_assoc]; rfl
    simp only [hrep]
    rw [ih (j + 1) f _ (by omega) (by omega)]
    have hidx : pre.length + 1 + (j + 1) = pre.length + 1 + j + 1 := by omega
    simp [List.range'_succ, List.append_assoc, hidx]

/-- `FreeStringArray` on the array that `strArrayToC` builds: the element
buffers are released in order, then the array block. -/
theorem FreeStringArray_built (pre : List (Option Block)) (fr : List Nat) (xs : List Str)
    (hlen : xs.length < arrayCap) :
    FreeStringArray
        ⟨pre ++ some (Block.slots (elemPtrs (pre.length + 1) xs.length ++ [some Ptr.null]))
            :: elemCells xs, fr⟩ (Ptr.addr pre.length 0)
      = some ⟨pre ++ List.replicate (xs.length + 1) none,
              fr ++ List.range' (pre.length + 1) xs.length ++ [pre.length]⟩ := by
  have hloop := FreeStringArray_loop_eq pre xs.length xs 0 arrayCap fr (by omega) hlen
  simp only [List.replicate_zero, List.nil_append, Nat.add_zero] at hloop
  have hne : Ptr.addr pre.length 0 ≠ Ptr.null := by simp
  simp only [FreeStringArray, hne, if_false, hloop]
  simp only [free, lookup_mid, if_true, set_mid]
  simp [List.replicate_succ]

theorem lookup_append_dead (cells : List (Option Block)) (fr fr' : List Nat) (n b : Nat) :
    Heap.lookup ⟨cells ++ List.replicate n none, fr'⟩ b = Heap.lookup ⟨cells, fr⟩ b := by
  simp only [Heap.lookup]
  by_cases hb : b < cells.length
  · rw [List.getElem?_append_left hb]
  · rw [List.getElem?_append_right (by omega), List.getElem?_eq_none (Nat.le_of_not_lt hb),
      List.getElem?_replicate]
    by_cases hn : b - cells.length < n <;> simp [hn]

theorem takeWhile_nonzero (s : Str) (after : List Byte) (hs : (0 : Byte) ∉ s) :
    (s ++ 0 :: after).takeWhile (fun c => c ≠ 0) = s := by
  induction s with
  | nil => simp [List.takeWhile]
  | cons c s ih =>
    have hc : c ≠ 0 := fun hc => hs (by simp [hc])
    have hs' : (0 : Byte) ∉ s := fun hm => hs (List.mem_cons_of_mem _ hm)
    have hd : decide (c ≠ 0) = true := by simp [hc]
    rw [List.cons_append, List.takeWhile_cons, hd, if_pos rfl, ih hs']

/-- `C.GoString` reads back the string a pointer points at. -/
theorem GoString_of_CStrAt (h : Heap) (q : Ptr) (s : Str) (hq : CStrAt h q s) :
    GoString h q = some s := by
  obtain ⟨b, bs, before, after, rfl, hb, rfl, hs⟩ := hq
  have hdrop : (before ++ s ++ 0 :: after).drop before.length = s ++ 0 :: after := by
    rw [List.append_assoc, List.drop_left]
  have hle : before.length ≤ (before ++ s ++ 0 :: after).length := by simp
  simp only [GoString, hb, hdrop, hle, true_and]
  simp only [List.mem_append, List.mem_cons, true_or, or_true, if_true,
    takeWhile_nonzero s after hs]

/-- The loop of `cArrayToGoSlice` over slots that point at strings, up to the
first null slot; what follows that slot is not looked at. -/
theorem cArrayToGoSlice_loop_eq (h : Heap) (post : List (Option Ptr)) :
    ∀ (ptrs : List Ptr) (strs acc : List Str), List.Forall₂ (CStrAt h) ptrs strs →
      cArrayToGoSlice.loop h (ptrs.map some ++ some Ptr.null :: post) acc
        = some (acc ++ strs) := by
  intro ptrs
  induction ptrs with
  | nil =>
    intro strs acc hf
    cases hf
    simp [cArrayToGoSlice.loop]
  | cons q ptrs ih =>
    intro strs acc hf
    cases hf with
    | cons hq hrest =>
      rename_i s strs
      have hne : q ≠ Ptr.null := by
        obtain ⟨b, bs, before, after, rfl, _⟩ := hq
        simp
      simp only [List.map_cons, List.cons_append, cArrayToGoSlice.loop, hne, if_false,
        GoString_of_CStrAt h q _ hq]
      have := ih strs (acc ++ [s]) hrest
      simp only [List.append_assoc, List.singleton_append] at this
      exact this

/-- `cArrayToGoSlice` on a foreign array whose slots from `cArray` on point at
the strings `strs` and are followed by a null slot. -/
theorem cArrayToGoSlice_of_slots (h : Heap) (b off : Nat) (ps post : List (Option Ptr))
    (ptrs : List Ptr) (strs : List Str) (hb : h.lookup b = some (Block.slots ps))
    (hoff : off ≤ ps.length) (hps : ps.drop off = ptrs.map some ++ some Ptr.null :: post)
    (hstr : List.Forall₂ (CStrAt h) ptrs strs) :
    cArrayToGoSlice h (Ptr.addr b off) = some (strs, h) := by
  simp only [cArrayToGoSlice, hb, hoff, if_true, hps,
    cArrayToGoSlice_loop_eq h post ptrs strs [] hstr]
  simp

/-- In the heap that `strArrayToC` builds, the slot of each string points at
that string, provided the string has no zero byte. -/
theorem built_CStrAt (fr : List Nat) (xs : List Str) (hz : ∀ s ∈ xs, (0 : Byte) ∉ s) :
    ∀ (front : List (Option Block)),
      List.Forall₂ (CStrAt ⟨front ++ elemCells xs, fr⟩)
        ((List.range' front.length xs.length).map (fun k => Ptr.addr k 0)) xs := by
  induction xs with
  | nil => intro front; simp [elemCells]
  | cons s rest ih =>
    intro front
    have hc : elemCells (s :: rest) = some (Block.bytes (s ++ [0])) :: elemCells rest := rfl
    simp only [List.length_cons, List.range'_succ, List.map_cons, hc]
    refine List.Forall₂.cons ?_ ?_
    · refine ⟨front.length, s ++ [0], [], [], rfl, lookup_mid _ _ _ _, by simp, ?_⟩
      exact hz s (by simp)
    · have := ih (fun t ht => hz t (List.mem_cons_of_mem _ ht))
        (front ++ [some (Block.bytes (s ++ [0]))])
      simpa using this

theorem built_lookup (pre : List (Option Block)) (x : Option Block) (fr : List Nat)
    (xs : List Str) (i : Nat) (hi : i < xs.length) :
    Heap.lookup ⟨pre ++ x :: elemCells xs, fr⟩ (pre.length + 1 + i)
      = some (Block.bytes (xs[i] ++ [0])) := by
  rw [lookup_after]
  simp [Heap.lookup, elemCells, hi]

theorem built_load (pre : List (Option Block)) (post : List (Option Block)) (fr : List Nat)
    (n i : Nat) (hi : i < n) :
    load ⟨pre ++ some (Block.slots (elemPtrs (pre.length + 1) n ++ [some Ptr.null])) :: post, fr⟩
        (Ptr.addr pre.length 0) i = some (Ptr.addr (pre.length + 1 + i) 0) := by
  apply load_mid
  rw [List.getElem?_append_left (by simp [elemPtrs_length]; omega)]
  simp only [elemPtrs, List.getElem?_map, List.getElem?_range' _ _ hi]
  simp

theorem built_load_last (pre : List (Option Block)) (post : List (Option Block))
    (fr : List Nat) (n : Nat) :
    load ⟨pre ++ some (Block.slots (elemPtrs (pre.length + 1) n ++ [some Ptr.null])) :: post, fr⟩
        (Ptr.addr pre.length 0) n = some Ptr.null := by
  apply load_mid
  have := getElem?_mid (elemPtrs (pre.length + 1) n) (some Ptr.null) []
  rw [elemPtrs_length] at this
  exact this

theorem lookup_fresh (h : Heap) (b : Nat) (hb : h.cells.length ≤ b) : h.lookup b = none := by
  simp [Heap.lookup, List.getElem?_eq_none hb]

/-! ## The claims -/

/-- C1 (counterexample): the round trip does not reproduce every sequence.  A
string with a zero byte inside comes back cut at that byte: `["a\0b"]` comes
back as `["a"]`.  A sequence of `1 << 28` strings does not come back at all:
`strArrayToC` panics on it. -/
theorem strArray_roundtrip_counterexample :
    ((strArrayToC ⟨[], []⟩ [[97, 0, 98]]).bind
        (fun r => (cArrayToGoSlice r.1 r.2).map Prod.fst) = some [[97]]) ∧
    ((strArrayToC ⟨[], []⟩ [[97, 0, 98]]).bind
        (fun r => (cArrayToGoSlice r.1 r.2).map Prod.fst) ≠ some [[97, 0, 98]]) ∧
    strArrayToC ⟨[], []⟩ (List.replicate arrayCap []) = none := by
  refine ⟨by decide, by decide, ?_⟩
  exact strArrayToC_long _ _ (by simp)

/-- C1 (amended): for every heap and every sequence `xs` of fewer than
`1 << 28` strings none of which contains a zero byte (the empty sequence,
duplicates and empty strings included), `strArrayToC` returns an array and
`cArrayToGoSlice` of that array is `xs` itself, the heap being left as
`strArrayToC` built it. -/
theorem strArray_roundtrip (h : Heap) (xs : List Str) (hlen : xs.length < arrayCap)
    (hz : ∀ s ∈ xs, (0 : Byte) ∉ s) :
    ∃ h1 p, strArrayToC h xs = some (h1, p) ∧ cArrayToGoSlice h1 p = some (xs, h1) := by
  refine ⟨_, _, strArrayToC_eq h xs hlen, ?_⟩
  apply cArrayToGoSlice_of_slots _ _ 0 _ [] ((List.range' (h.cells.length + 1) xs.length).map
    (fun k => Ptr.addr k 0)) xs (lookup_mid _ _ _ _) (Nat.zero_le _)
  · simp [elemPtrs]
  · have := built_CStrAt h.freed xs hz (h.cells ++ [some (Block.slots
      (elemPtrs (h.cells.length + 1) xs.length ++ [some Ptr.null]))])
    simpa using this

/-- C1 (witness): a sequence with a duplicate and an empty string. -/
theorem strArray_roundtrip_witness :
    ∃ h1 p, strArrayToC sampleHeap [[71, 111], [], [71, 111]] = some (h1, p) ∧
      cArrayToGoSlice h1 p = some ([[71, 111], [], [71, 111]], h1) :=
  strArray_roundtrip sampleHeap [[71, 111], [], [71, 111]] (by decide) (by decide)

/-- C2 (counterexample): on a sequence of `1 << 28` strings `strArrayToC` panics
at `cArray[len(langs)] = nil`, so there is no array to hand to
`FreeStringArray` and no final heap. -/
theorem build_then_free_counterexample :
    (strArrayToC ⟨[], []⟩ (List.replicate arrayCap [])).bind
      (fun r => FreeStringArray r.1 r.2) = none := by
  rw [strArrayToC_long _ _ (by simp)]
  rfl

/-- C2 (amended): for every heap `h` and every sequence `xs` of fewer than
`1 << 28` strings (duplicates and empty strings included), `strArrayToC h xs`
returns an array in a new block `a` whose slot `i` points to a new block
`a+1+i` holding `xs[i]` and whose slot `len(xs)` is null, and `FreeStringArray`
on it returns; the blocks freed by it are, in this order, the `len(xs)` element
blocks `a+1, …, a+len(xs)` and then the array block `a`, each once and nothing
else, and afterwards the live blocks are those of `h`. -/
theorem build_then_free (h : Heap) (xs : List Str) (hlen : xs.length < arrayCap) :
    ∃ h1 h2, strArrayToC h xs = some (h1, Ptr.addr h.cells.length 0) ∧
      (∀ (i : Nat) (hi : i < xs.length),
        load h1 (Ptr.addr h.cells.length 0) i = some (Ptr.addr (h.cells.length + 1 + i) 0) ∧
        h1.lookup (h.cells.length + 1 + i) = some (Block.bytes (xs[i] ++ [0])) ∧
        h.lookup (h.cells.length + 1 + i) = none) ∧
      load h1 (Ptr.addr h.cells.length 0) xs.length = some Ptr.null ∧
      h.lookup h.cells.length = none ∧
      FreeStringArray h1 (Ptr.addr h.cells.length 0) = some h2 ∧
      h2.freed = h.freed ++ List.range' (h.cells.length + 1) xs.length ++ [h.cells.length] ∧
      (List.range' (h.cells.length + 1) xs.length ++ [h.cells.length]).Nodup ∧
      ∀ b, h2.lookup b = h.lookup b := by
  refine ⟨_, _, strArrayToC_eq h xs hlen, ?_, built_load_last _ _ _ _,
    lookup_fresh h _ (Nat.le_refl _), FreeStringArray_built h.cells h.freed xs hlen, rfl, ?_, ?_⟩
  · intro i hi
    exact ⟨built_load _ _ _ _ _ hi, built_lookup _ _ _ _ _ hi, lookup_fresh h _ (by omega)⟩
  · rw [List.nodup_append]
    refine ⟨List.nodup_range' _ _, by simp, ?_⟩
    intro a ha hb
    simp only [List.mem_singleton] at hb
    simp only [List.mem_range'_1] at ha
    omega
  · intro b
    exact lookup_append_dead h.cells h.freed _ _ b

/-- C2 (witness): a sequence with a duplicate and an empty string, built and
freed in a heap that already holds blocks. -/
theorem build_then_free_witness :
    ∃ h1 h2, strArrayToC sampleHeap [[71, 111], [], [71, 111]] = some (h1, Ptr.addr 3 0) ∧
      FreeStringArray h1 (Ptr.addr 3 0) = some h2 ∧ h2.freed = [2, 4, 5, 6, 3] ∧
      ∀ b, h2.lookup b = sampleHeap.lookup b := by
  obtain ⟨h1, h2, hb, _, _, _, hf, hfr, _, hl⟩ :=
    build_then_free sampleHeap [[71, 111], [], [71, 111]] (by decide)
  exact ⟨h1, h2, hb, hf, hfr, hl⟩

/-- C7: from every heap, `strArrayToC` of the empty sequence returns a non-null
pointer to the start of a new block of exactly one pointer slot, which holds
null, and changes nothing else; `FreeStringArray` on that result frees that
block and only it, so no element block. -/
theorem strArrayToC_empty (h : Heap) :
    strArrayToC h [] = some (⟨h.cells ++ [some (Block.slots [some Ptr.null])], h.freed⟩,
        Ptr.addr h.cells.length 0) ∧
      Ptr.addr h.cells.length 0 ≠ Ptr.null ∧ h.lookup h.cells.length = none ∧
      Heap.lookup ⟨h.cells ++ [some (Block.slots [some Ptr.null])], h.freed⟩ h.cells.length
        = some (Block.slots [some Ptr.null]) ∧
      FreeStringArray ⟨h.cells ++ [some (Block.slots [some Ptr.null])], h.freed⟩
          (Ptr.addr h.cells.length 0)
        = some ⟨h.cells ++ [none], h.freed ++ [h.cells.length]⟩ := by
  have hb := strArrayToC_eq h [] (by decide)
  have hf := FreeStringArray_built h.cells h.freed [] (by decide)
  simp only [elemPtrs, elemCells, List.length_nil, List.range'_zero, List.map_nil,
    List.nil_append, List.append_nil, Nat.zero_add, List.replicate_succ,
    List.replicate_zero] at hb hf
  exact ⟨hb, by simp, lookup_fresh h _ (Nat.le_refl _), lookup_mid _ _ _ _, hf⟩

/-- C8: `cArrayToGoSlice(nil)` returns a sequence of length 0 and, for every
heap, `FreeStringArray(nil)` and `FreeCString(nil)` return with the heap (its
blocks and the record of frees) exactly as it was. -/
theorem null_references (h : Heap) :
    (∃ slice, cArrayToGoSlice h Ptr.null = some (slice, h) ∧ slice.length = 0) ∧
      FreeStringArray h Ptr.null = some h ∧ FreeCString h Ptr.null = some h :=
  ⟨⟨[], rfl, rfl⟩, rfl, rfl⟩

/-- `C.CString` returns a fresh C string holding its argument. -/
theorem CString_fresh (h : Heap) (label : Str) :
    FreshCString h label (some (CString h label)) := by
  refine ⟨_, _, h.cells.length, rfl, by simp [CString, alloc], rfl,
    lookup_fresh h _ (Nat.le_refl _), Nat.le_refl _, ?_, ?_, ?_, rfl⟩
  · exact lookup_mid h.cells _ [] _
  · intro hl
    subst hl
    exact lookup_mid h.cells _ [] _
  · intro b1 hb1
    simp only [CString, alloc, Heap.lookup]
    by_cases hlt : b1 < h.cells.length
    · rw [List.getElem?_append_left hlt]
    · have hgt : h.cells.length < b1 := by omega
      rw [List.getElem?_eq_none (by simp; omega), List.getElem?_eq_none (by omega)]

/-- C3: for every engine, every heap and every input whose string pointers are
null or point at readable strings and whose content is null or readable (so
for null pointers in particular), each of the eleven single-result operations
returns, and what it returns is a non-null pointer to a newly allocated buffer
holding the label the engine gave followed by the terminator — the terminator
alone when the label is empty. -/
theorem single_result_fresh (e : Engine) (h : Heap) (filename content path language : Ptr)
    (length : Int) (f p l : Str) (c : List Byte)
    (hf : GoString h filename = some f) (hc : toGoBytes h content length = some c)
    (hp : GoString h path = some p) (hl : GoString h language = some l) :
    FreshCString h (e.GetLanguage f c) (GetLanguage e h filename content length) ∧
    FreshCString h (e.GetLanguageByContent f c).1
      (GetLanguageByContent e h filename content length) ∧
    FreshCString h (e.GetLanguageByExtension f).1 (GetLanguageByExtension e h filename) ∧
    FreshCString h (e.GetLanguageByFilename f).1 (GetLanguageByFilename e h filename) ∧
    FreshCString h (e.GetLanguageByModeline c).1 (GetLanguageByModeline e h content length) ∧
    FreshCString h (e.GetLanguageByModeline c).1
      (GetLanguageByEmacsModeline e h content length) ∧
    FreshCString h (e.GetLanguageByVimModeline c).1
      (GetLanguageByVimModeline e h content length) ∧
    FreshCString h (e.GetLanguageByShebang c).1 (GetLanguageByShebang e h content length) ∧
    FreshCString h (e.GetMIMEType p l) (GetMimeType e h path language) ∧
    FreshCString h (e.GetColor l) (GetColor e h language) ∧
    FreshCString h (e.TypeString (e.GetLanguageType l)) (GetLanguageType e h language) := by
  simp only [GetLanguage, GetLanguageByContent, GetLanguageByExtension, GetLanguageByFilename,
    GetLanguageByModeline, GetLanguageByEmacsModeline, GetLanguageByVimModeline,
    GetLanguageByShebang, GetMimeType, GetColor, GetLanguageType, hf, hc, hp, hl]
  exact ⟨CString_fresh _ _, CString_fresh _ _, CString_fresh _ _, CString_fresh _ _,
    CString_fresh _ _, CString_fresh _ _, CString_fresh _ _, CString_fresh _ _,
    CString_fresh _ _, CString_fresh _ _, CString_fresh _ _⟩

/-- C3 (witness): a file name read from a buffer, null content, a null path
and a language read from inside a buffer, with an engine that finds no match
(the empty label). -/
theorem single_result_fresh_witness :
    FreshCString sampleHeap [] (GetLanguage (sampleEngine [] [] false []) sampleHeap
      (Ptr.addr 0 0) Ptr.null 0) ∧
    FreshCString sampleHeap [] (GetMimeType (sampleEngine [] [] false []) sampleHeap
      Ptr.null (Ptr.addr 0 5)) :=
  have w := single_result_fresh (sampleEngine [] [] false []) sampleHeap (Ptr.addr 0 0) Ptr.null
    Ptr.null (Ptr.addr 0 5) 0 [97, 46, 103, 111] [] [98] [] (by decide) (by decide)
    (by decide) (by decide)
  ⟨w.1, w.2.2.2.2.2.2.2.2.1⟩

/-- C5: for every engine, every heap and every readable input, each of the
eight boolean operations returns `1` exactly when the engine's predicate is
true on the marshalled input, `0` exactly when it is false, and never anything
else. -/
theorem boolean_results (e : Engine) (h : Heap) (path content : Ptr) (length : Int)
    (p : Str) (c : List Byte)
    (hp : GoString h path = some p) (hc : toGoBytes h content length = some c) :
    EncodesBool (IsBinary e h content length) (e.IsBinary c) ∧
    EncodesBool (IsConfiguration e h path) (e.IsConfiguration p) ∧
    EncodesBool (IsDocumentation e h path) (e.IsDocumentation p) ∧
    EncodesBool (IsDotFile e h path) (e.IsDotFile p) ∧
    EncodesBool (IsImage e h path) (e.IsImage p) ∧
    EncodesBool (IsVendor e h path) (e.IsVendor p) ∧
    EncodesBool (IsGenerated e h path content length) (e.IsGenerated p c) ∧
    EncodesBool (IsTest e h path) (e.IsTest p) := by
  have key : ∀ b : Bool, EncodesBool (if b = true then some 1 else some 0) b := by
    intro b
    cases b <;> simp [EncodesBool]
  simp only [IsBinary, IsConfiguration, IsDocumentation, IsDotFile, IsImage, IsVendor,
    IsGenerated, IsTest, hp, hc]
  exact ⟨key _, key _, key _, key _, key _, key _, key _, key _⟩

/-- C5 (witness): a path read from a buffer and content with a zero byte
inside. -/
theorem boolean_results_witness :
    EncodesBool (IsBinary (sampleEngine [] [] true []) sampleHeap (Ptr.addr 0 2) 4) true ∧
    EncodesBool (IsTest (sampleEngine [] [] true []) sampleHeap (Ptr.addr 0 0)) true :=
  have w := boolean_results (sampleEngine [] [] true []) sampleHeap (Ptr.addr 0 0)
    (Ptr.addr 0 2) 4 [97, 46, 103, 111] [103, 111, 0, 98] (by decide) (by decide)
  ⟨w.1, w.2.2.2.2.2.2.2⟩

/-- C6: `toGoBytes(p, n)` is the empty byte sequence when `p` is null or
`n ≤ 0`; otherwise, `p` pointing at offset `off` of a live buffer `bs` with at
least `n` bytes from there on, it is exactly `bs[off], …, bs[off+n-1]` in
order: its length is `n` and byte `i` is `bs[off+i]` whatever its value, zero
included. -/
theorem toGoBytes_spec (h : Heap) (p : Ptr) (n : Int) :
    (p = Ptr.null ∨ n ≤ 0 → toGoBytes h p n = some []) ∧
    (∀ (b off : Nat) (bs : List Byte), p = Ptr.addr b off → 0 < n →
      h.lookup b = some (Block.bytes bs) → off + n.toNat ≤ bs.length →
      ∃ out, toGoBytes h p n = some out ∧ (out.length : Int) = n ∧
        out = (bs.drop off).take n.toNat ∧
        ∀ i, i < n.toNat → out[i]? = bs[off + i]?) := by
  constructor
  · intro hp
    simp [toGoBytes, hp]
  · intro b off bs hp hn hb hlen
    subst hp
    have hcond : ¬ (Ptr.addr b off = Ptr.null ∨ n ≤ 0) := by simp; omega
    refine ⟨(bs.drop off).take n.toNat, ?_, ?_, rfl, ?_⟩
    · simp only [toGoBytes, hcond, if_false, GoBytes, hb, hlen, if_true]
    · simp only [List.length_take, List.length_drop]
      omega
    · intro i hi
      rw [List.getElem?_take_of_lt hi, List.getElem?_drop]

/-- C6 (witness): four bytes read from the middle of a buffer, the third of
them zero. -/
theorem toGoBytes_spec_witness :
    ∃ out, toGoBytes sampleHeap (Ptr.addr 0 2) 4 = some out ∧ (out.length : Int) = 4 ∧
      out = [103, 111, 0, 98] ∧ out[2]? = some 0 ∧ out[3]? = some 98 := by
  obtain ⟨out, h1, h2, h3, h4⟩ := (toGoBytes_spec sampleHeap (Ptr.addr 0 2) 4).2 0 2
    [97, 46, 103, 111, 0, 98, 0] rfl (by decide) (by decide) (by decide)
  exact ⟨out, h1, h2, h3, h4 2 (by decide), h4 3 (by decide)⟩

/-- C9: for every heap and every non-null array pointer whose slots, from the
pointer on, are `k` pointers at NUL-terminated strings `strs` followed by a
null slot and then by anything at all (`post`: initialised or not, valid or
not), `cArrayToGoSlice` returns exactly those `k` strings in slot order and
leaves the heap as it was. -/
theorem cArrayToGoSlice_spec (h : Heap) (b off : Nat) (ps post : List (Option Ptr))
    (ptrs : List Ptr) (strs : List Str) (hb : h.lookup b = some (Block.slots ps))
    (hps : ps.drop off = ptrs.map some ++ some Ptr.null :: post)
    (hstr : List.Forall₂ (CStrAt h) ptrs strs) :
    cArrayToGoSlice h (Ptr.addr b off) = some (strs, h) ∧ strs.length = ptrs.length ∧
      ∀ (i : Nat) (hi : i < strs.length), ∃ q, ps[off + i]? = some (some q) ∧
        q ≠ Ptr.null ∧ CStrAt h q strs[i] := by
  have hoff : off ≤ ps.length := by
    by_contra hcon
    rw [List.drop_eq_nil_of_le (by omega)] at hps
    simp at hps
  have hlen : strs.length = ptrs.length := hstr.length_eq.symm
  refine ⟨cArrayToGoSlice_of_slots h b off ps post ptrs strs hb hoff hps hstr, hlen, ?_⟩
  intro i hi
  have hi' : i < ptrs.length := by omega
  have hrel : CStrAt h (ptrs.get ⟨i, hi'⟩) (strs.get ⟨i, hi⟩) := hstr.get hi' hi
  refine ⟨ptrs.get ⟨i, hi'⟩, ?_, ?_, hrel⟩
  · rw [← List.getElem?_drop, hps, List.getElem?_append_left (by simpa using hi')]
    simp [List.getElem?_eq_getElem hi']
  · obtain ⟨b1, bs, before, after, hq, _⟩ := hrel
    rw [hq]
    simp

/-- C9 (witness): the array of the sample heap read from its start: two
strings, then the null slot; an uninitialised slot and a pointer to no block
come after it. -/
theorem cArrayToGoSlice_spec_witness :
    cArrayToGoSlice sampleHeap (Ptr.addr 1 0) = some ([[98], [97, 46, 103, 111]], sampleHeap) :=
  (cArrayToGoSlice_spec sampleHeap 1 0
    [some (Ptr.addr 0 5), some (Ptr.addr 0 0), some Ptr.null, none, some (Ptr.addr 7 0)]
    [none, some (Ptr.addr 7 0)] [Ptr.addr 0 5, Ptr.addr 0 0] [[98], [97, 46, 103, 111]]
    rfl rfl
    (List.Forall₂.cons
      ⟨0, [97, 46, 103, 111, 0, 98, 0], [97, 46, 103, 111, 0], [], rfl, rfl, rfl, by decide⟩
      (List.Forall₂.cons
        ⟨0, [97, 46, 103, 111, 0, 98, 0], [], [98, 0], rfl, rfl, rfl, by decide⟩
        List.Forall₂.nil))).1

/-- C10: for every heap, content pointer and length, `GetLanguageByEmacsModeline`
and `GetLanguageByModeline` return the same thing, the C string of the label of
the engine's generic modeline classifier; an engine `e1` that agrees with `e`
on that classifier gives the same result whatever its Emacs classifier is; the
plural `GetLanguagesByEmacsModeline` marshals what the engine's Emacs-specific
plural classifier returns. -/
theorem emacs_modeline_single_is_generic (e e1 : Engine) (h : Heap)
    (filename content candidates : Ptr) (length : Int)
    (hsame : e1.GetLanguageByModeline = e.GetLanguageByModeline) :
    GetLanguageByEmacsModeline e h content length = GetLanguageByModeline e h content length ∧
    GetLanguageByEmacsModeline e1 h content length
      = GetLanguageByEmacsModeline e h content length ∧
    (∀ c, toGoBytes h content length = some c →
      GetLanguageByEmacsModeline e h content length
        = some (CString h (e.GetLanguageByModeline c).1)) ∧
    (∀ f c cs h1, GoString h filename = some f → toGoBytes h content length = some c →
      cArrayToGoSlice h candidates = some (cs, h1) →
      GetLanguagesByEmacsModeline e h filename content length candidates
        = strArrayToC h1 (e.GetLanguagesByEmacsModeline f c cs)) := by
  refine ⟨rfl, ?_, ?_, ?_⟩
  · simp only [GetLanguageByEmacsModeline, hsame]
  · intro c hc
    simp only [GetLanguageByEmacsModeline, hc]
  · intro f c cs h1 hf hc hcs
    simp only [GetLanguagesByEmacsModeline, hf, hc, hcs]

/-- C10 (witness): two engines whose Emacs classifiers answer `"E"` and `"X"`
and whose generic classifier answers `"G"`: both give a buffer holding `"G"`. -/
theorem emacs_modeline_single_is_generic_witness :
    GetLanguageByEmacsModeline (sampleEngine [71] [88] false []) sampleHeap (Ptr.addr 0 0) 4
      = GetLanguageByEmacsModeline (sampleEngine [71] [69] false []) sampleHeap (Ptr.addr 0 0) 4 ∧
    GetLanguageByEmacsModeline (sampleEngine [71] [69] false []) sampleHeap (Ptr.addr 0 0) 4
      = some (CString sampleHeap [71]) :=
  have w := emacs_modeline_single_is_generic (sampleEngine [71] [69] false [])
    (sampleEngine [71] [88] false []) sampleHeap Ptr.null (Ptr.addr 0 0) Ptr.null 4 rfl
  ⟨w.2.1, w.2.2.1 [97, 46, 103, 111] (by decide)⟩

/-- `cArrayToGoSlice` returns the heap it was given. -/
theorem cArrayToGoSlice_heap (h h1 : Heap) (p : Ptr) (cs : List Str)
    (hcs : cArrayToGoSlice h p = some (cs, h1)) : h1 = h := by
  unfold cArrayToGoSlice at hcs
  split at hcs
  · simp only [Option.some.injEq, Prod.mk.injEq] at hcs
    exact hcs.2.symm
  · split at hcs
    · split at hcs
      · split at hcs
        · exact absurd hcs (by simp)
        · simp only [Option.some.injEq, Prod.mk.injEq] at hcs
          exact hcs.2.symm
      · exact absurd hcs (by simp)
    · exact absurd hcs (by simp)

/-- What `strArrayToC` returns on fewer than `arrayCap` labels holds them in
order. -/
theorem strArrayToC_holds (h : Heap) (xs : List Str) (hlen : xs.length < arrayCap) :
    HoldsLabels h xs (strArrayToC h xs) := by
  refine ⟨_, _, h.cells.length, strArrayToC_eq h xs hlen, by simp, rfl,
    lookup_fresh h _ (Nat.le_refl _), ⟨_, lookup_mid _ _ _ _, by simp [elemPtrs_length]⟩,
    ?_, built_load_last _ _ _ _, ?_, rfl⟩
  · intro i hi
    exact ⟨h.cells.length + 1 + i, built_load _ _ _ _ _ hi, built_lookup _ _ _ _ _ hi,
      lookup_fresh h _ (by omega)⟩
  · intro b hb
    exact lookup_before _ _ _ _ hb

/-- C4 (counterexample): with an engine whose classifier returns `1 << 28`
labels, `GetLanguagesByContent` on null inputs returns nothing at all (it
panics inside `strArrayToC`), so no array holding the labels. -/
theorem plural_results_counterexample :
    GetLanguagesByContent (sampleEngine [] [] false (List.replicate arrayCap [])) ⟨[], []⟩
      Ptr.null Ptr.null 0 Ptr.null = none := by
  have hl := strArrayToC_long ⟨[], []⟩ (List.replicate arrayCap []) (by simp)
  simp only [GetLanguagesByContent, GoString, toGoBytes, cArrayToGoSlice, true_or, if_true,
    sampleEngine, hl]

/-- C4 (amended): for every engine, every heap and every readable file name,
content and candidates array (null included), whenever the engine's classifier
returns fewer than `1 << 28` labels, each of the seven plural operations with a
candidate filter returns `strArrayToC` of what the classifier returns on the
marshalled file name, content and candidates, and that result is a non-null
pointer to a new array holding the classifier's labels in the classifier's
order, closed by a null slot (the null slot alone when there is no label);
reading the candidates leaves the heap as it was. -/
theorem plural_results (e : Engine) (h h1 : Heap) (filename content candidates : Ptr)
    (length : Int) (f : Str) (c : List Byte) (cs : List Str)
    (hf : GoString h filename = some f) (hc : toGoBytes h content length = some c)
    (hcs : cArrayToGoSlice h candidates = some (cs, h1))
    (hn : ∀ labels ∈ [e.GetLanguagesByContent f c cs, e.GetLanguagesByExtension f c cs, e.GetLanguagesByFilename f c cs,
      e.GetLanguagesByModeline f c cs, e.GetLanguagesByEmacsModeline f c cs,
      e.GetLanguagesByVimModeline f c cs, e.GetLanguagesByShebang f c cs],
      labels.length < arrayCap) :
    h1 = h ∧
    (GetLanguagesByContent e h filename content length candidates
        = strArrayToC h (e.GetLanguagesByContent f c cs) ∧
      HoldsLabels h (e.GetLanguagesByContent f c cs)
        (GetLanguagesByContent e h filename content length candidates)) ∧
    (GetLanguagesByExtension e h filename content length candidates
        = strArrayToC h (e.GetLanguagesByExtension f c cs) ∧
      HoldsLabels h (e.GetLanguagesByExtension f c cs)
        (GetLanguagesByExtension e h filename content length candidates)) ∧
    (GetLanguagesByFilename e h filename content length candidates
        = strArrayToC h (e.GetLanguagesByFilename f c cs) ∧
      HoldsLabels h (e.GetLanguagesByFilename f c cs)
        (GetLanguagesByFilename e h filename content length candidates)) ∧
    (GetLanguagesByModeline e h filename content length candidates
        = strArrayToC h (e.GetLanguagesByModeline f c cs) ∧
      HoldsLabels h (e.GetLanguagesByModeline f c cs)
        (GetLanguagesByModeline e h filename content length candidates)) ∧
    (GetLanguagesByEmacsModeline e h filename content length candidates
        = strArrayToC h (e.GetLanguagesByEmacsModeline f c cs) ∧
      HoldsLabels h (e.GetLanguagesByEmacsModeline f c cs)
        (GetLanguagesByEmacsModeline e h filename content length candidates)) ∧
    (GetLanguagesByVimModeline e h filename content length candidates
        = strArrayToC h (e.GetLanguagesByVimModeline f c cs) ∧
      HoldsLabels h (e.GetLanguagesByVimModeline f c cs)
        (GetLanguagesByVimModeline e h filename content length candidates)) ∧
    (GetLanguagesByShebang e h filename content length candidates
        = strArrayToC h (e.GetLanguagesByShebang f c cs) ∧
      HoldsLabels h (e.GetLanguagesByShebang f c cs)
        (GetLanguagesByShebang e h filename content length candidates)) := by
  have hh := cArrayToGoSlice_heap h h1 candidates cs hcs
  subst hh
  simp only [List.mem_cons, List.mem_singleton, List.not_mem_nil, or_false, forall_eq_or_imp,
    forall_eq] at hn
  obtain ⟨n1, n2, n3, n4, n5, n6, n7⟩ := hn
  simp only [GetLanguagesByContent, GetLanguagesByExtension, GetLanguagesByFilename, GetLanguagesByModeline, GetLanguagesByEmacsModeline, GetLanguagesByVimModeline, GetLanguagesByShebang, hf, hc, hcs, true_and]
  exact ⟨strArrayToC_holds _ _ n1, strArrayToC_holds _ _ n2, strArrayToC_holds _ _ n3,
    strArrayToC_holds _ _ n4, strArrayToC_holds _ _ n5, strArrayToC_holds _ _ n6,
    strArrayToC_holds _ _ n7⟩

/-- C4 (witness): a file name, a content with a zero byte and a candidates
array read from the sample heap; the engine answers two labels, the second
empty. -/
theorem plural_results_witness :
    HoldsLabels sampleHeap [[71, 111], []]
      (GetLanguagesByContent (sampleEngine [] [] false [[71, 111], []]) sampleHeap
        (Ptr.addr 0 0) (Ptr.addr 0 2) 4 (Ptr.addr 1 0)) ∧
    HoldsLabels sampleHeap [[71, 111], []]
      (GetLanguagesByShebang (sampleEngine [] [] false [[71, 111], []]) sampleHeap
        (Ptr.addr 0 0) (Ptr.addr 0 2) 4 (Ptr.addr 1 0)) :=
  have w := plural_results (sampleEngine [] [] false [[71, 111], []]) sampleHeap sampleHeap
    (Ptr.addr 0 0) (Ptr.addr 0 2) (Ptr.addr 1 0) 4 [97, 46, 103, 111] [103, 111, 0, 98]
    [[98], [97, 46, 103, 111]] (by decide) (by decide) (by decide)
    (by
      intro labels hl
      simp only [sampleEngine, List.mem_cons, List.mem_singleton, List.not_mem_nil, or_false,
        or_self] at hl
      subst hl
      decide)
  ⟨w.2.1.2, w.2.2.2.2.2.2.2.2⟩

end Enry
